import Mathlib

/-!
Verification development for the nostr key-utility scripts
(scripts/nostr_keys.py, scripts/vanity_hex.py, scripts/vanity_npub.py).

The definitions below are a shallow embedding of the Python source:
pure helpers become Lean functions on lists of characters and bytes
(bytes are naturals in the range 0..255), and the parallel vanity
search of nostr_keys.py becomes a small-step machine driven by an
explicit schedule of worker indices, so that statements about
"every interleaving" quantify over schedules.
-/

/-- The sixteen lower-case hexadecimal digit characters, in value order.
Mirrors the character set produced by Python bytes.hex(). -/
def hexDigits : List Char := "0123456789abcdef".toList

/-- Character for the hexadecimal value of n (taken modulo 16). -/
def hexDigitChar (n : Nat) : Char := hexDigits.getD (n % 16) '0'

/-- Embedding of Python bytes.hex(): each byte (a natural in 0..255)
becomes a high-nibble character followed by a low-nibble character. -/
def hexEncode (bs : List Nat) : List Char :=
  bs.foldr (fun b acc => hexDigitChar (b / 16) :: hexDigitChar b :: acc) []

/-- Embedding of the hex-mode match test of _vanity_worker
(nostr_keys.py line 38): pub_bytes.hex().startswith(prefix). -/
def hexMatch (pfx : List Char) (pub : List Nat) : Bool :=
  pfx.isPrefixOf (hexEncode pub)

theorem hexEncode_nil : hexEncode [] = [] := rfl

theorem hexEncode_cons (b : Nat) (bs : List Nat) :
    hexEncode (b :: bs) = hexDigitChar (b / 16) :: hexDigitChar b :: hexEncode bs := rfl

theorem hexEncode_length (bs : List Nat) : (hexEncode bs).length = 2 * bs.length := by
  induction bs with
  | nil => rfl
  | cons b t ih => simp [hexEncode_cons, ih]; omega

theorem hexDigitChar_mem (n : Nat) : hexDigitChar n ∈ hexDigits := by
  have h : n % 16 < 16 := Nat.mod_lt _ (by omega)
  unfold hexDigitChar
  have h16 : hexDigits.length = 16 := by decide
  rw [List.getD_eq_getElem?_getD, List.getElem?_eq_getElem (by omega)]
  simp [List.getElem_mem]

theorem hexEncode_mem_hexDigits (bs : List Nat) : ∀ c ∈ hexEncode bs, c ∈ hexDigits := by
  induction bs with
  | nil => intro c hc; simp [hexEncode_nil] at hc
  | cons b t ih =>
    intro c hc
    rw [hexEncode_cons] at hc
    simp only [List.mem_cons] at hc
    rcases hc with h | h | h
    · exact h ▸ hexDigitChar_mem _
    · exact h ▸ hexDigitChar_mem _
    · exact ih c h

/-- A list is a Boolean prefix of another exactly when taking its length
from the other list gives it back. -/
theorem isPrefixOf_iff_take (p l : List Char) :
    p.isPrefixOf l = true ↔ l.take p.length = p := by
  induction p generalizing l with
  | nil => simp [List.isPrefixOf]
  | cons x xs ih =>
    cases l with
    | nil => simp [List.isPrefixOf]
    | cons y ys =>
      simp only [List.isPrefixOf, List.length_cons, List.take_succ_cons,
        Bool.and_eq_true, beq_iff_eq, List.cons.injEq]
      constructor
      · rintro ⟨h1, h2⟩; exact ⟨h1.symm, (ih ys).mp h2⟩
      · rintro ⟨h1, h2⟩; exact ⟨h1.symm, (ih ys).mpr h2⟩

theorem isPrefixOf_length_le {p l : List Char} (h : p.isPrefixOf l = true) :
    p.length ≤ l.length := by
  have := (isPrefixOf_iff_take p l).mp h
  have hlen : (l.take p.length).length = p.length := by rw [this]
  rw [List.length_take] at hlen
  omega

/-- Characters the CPython integer parser skips as whitespace, restricted
to the Latin-1 code points (space, tab, newline, vertical tab, form feed,
carriage return, the separator control characters 28-31, next line, and
no-break space). -/
def isPyWs (c : Char) : Bool :=
  c.toNat = 32 || c.toNat = 9 || c.toNat = 10 || c.toNat = 11 || c.toNat = 12 ||
  c.toNat = 13 || c.toNat = 28 || c.toNat = 29 || c.toNat = 30 || c.toNat = 31 ||
  c.toNat = 133 || c.toNat = 160

/-- A hexadecimal digit as accepted by int(s, 16): 0-9, a-f, A-F. -/
def isHexDig (c : Char) : Bool :=
  (('0' ≤ c) && (c ≤ '9')) || (('a' ≤ c) && (c ≤ 'f')) || (('A' ≤ c) && (c ≤ 'F'))

/-- After one digit of int(s, 16) has been read: further digits, single
underscores between digits, then optional trailing whitespace. -/
def scanAfterDigit : List Char → Bool
  | [] => true
  | c :: rest =>
    if isHexDig c then scanAfterDigit rest
    else if c = '_' then
      match rest with
      | [] => false
      | c2 :: r2 => isHexDig c2 && scanAfterDigit r2
    else isPyWs c && rest.all isPyWs

/-- The digit block of int(s, 16): at least one digit; a single leading
underscore is allowed only right after a 0x base marker. -/
def startDigits (allowU : Bool) : List Char → Bool
  | [] => false
  | c :: rest =>
    if c = '_' then
      allowU && (match rest with
        | [] => false
        | c2 :: r2 => isHexDig c2 && scanAfterDigit r2)
    else isHexDig c && scanAfterDigit rest

/-- int(s, 16) after whitespace and sign: an optional 0x base marker
(the input has been lowercased, so 0X cannot occur), then the digits. -/
def afterSign (s : List Char) : Bool :=
  if s.take 2 = ['0', 'x'] then startDigits true (s.drop 2) else startDigits false s

/-- int(s, 16) after leading whitespace: an optional single sign. -/
def afterWs : List Char → Bool
  | [] => false
  | c :: rest => if c = '+' || c = '-' then afterSign rest else afterSign (c :: rest)

/-- Whether CPython int(s, 16) parses s without raising ValueError:
leading and trailing whitespace, an optional sign, an optional 0x marker,
and hexadecimal digits with single underscores between digits.
This embeds the try int(prefix, 16) / except ValueError validation of
vanity_hex.py (lines 17-22). -/
def pyIntValid16 (s : List Char) : Bool := afterWs (s.dropWhile isPyWs)

/-- Embedding of vanity_hex.main on a single command-line argument:
lowercase it, keep it when int(prefix, 16) parses (the search is then
started with that prefix, Except.ok), otherwise print a diagnostic and
exit with code 1 (Except.error) before any worker is spawned. -/
def hexMainModel (arg : List Char) : Except Unit (List Char) :=
  let p := arg.map Char.toLower
  if pyIntValid16 p then Except.ok p else Except.error ()


deriving instance DecidableEq for Except

theorem scanAfterDigit_cons (c : Char) (t : List Char) :
    scanAfterDigit (c :: t) =
      if isHexDig c then scanAfterDigit t
      else if c = '_' then
        (match t with
         | [] => false
         | c2 :: r2 => isHexDig c2 && scanAfterDigit r2)
      else isPyWs c && t.all isPyWs := by
  conv_lhs => unfold scanAfterDigit

theorem afterWs_cons (c : Char) (t : List Char) :
    afterWs (c :: t) =
      if c = '+' || c = '-' then afterSign t else afterSign (c :: t) := by
  conv_lhs => unfold afterWs

theorem startDigits_cons (b : Bool) (c : Char) (t : List Char) :
    startDigits b (c :: t) =
      if c = '_' then
        b && (match t with
          | [] => false
          | c2 :: r2 => isHexDig c2 && scanAfterDigit r2)
      else isHexDig c && scanAfterDigit t := by
  conv_lhs => unfold startDigits

theorem mem_hexDigits_props {c : Char} (h : c ∈ hexDigits) :
    isHexDig c = true ∧ Char.toLower c = c ∧ c ≠ '+' ∧ c ≠ '-' ∧ c ≠ '_' ∧
    isPyWs c = false := by
  revert c
  decide

theorem scanAfterDigit_of_hexDigits {s : List Char} (h : ∀ c ∈ s, c ∈ hexDigits) :
    scanAfterDigit s = true := by
  induction s with
  | nil => rfl
  | cons c t ih =>
    have hc := (mem_hexDigits_props (h c (List.mem_cons_self c t))).1
    rw [scanAfterDigit_cons, hc, if_pos rfl]
    exact ih (fun c2 hc2 => h c2 (List.mem_cons_of_mem c hc2))

theorem map_toLower_of_hexDigits {s : List Char} (h : ∀ c ∈ s, c ∈ hexDigits) :
    s.map Char.toLower = s := by
  induction s with
  | nil => rfl
  | cons c t ih =>
    have hc := (mem_hexDigits_props (h c (List.mem_cons_self c t))).2.1
    simp only [List.map_cons, hc, List.cons.injEq, true_and]
    exact ih (fun c2 hc2 => h c2 (List.mem_cons_of_mem c hc2))

theorem hexMainModel_of_hexDigits {s : List Char} (hne : s ≠ [])
    (h : ∀ c ∈ s, c ∈ hexDigits) : hexMainModel s = Except.ok s := by
  obtain ⟨c, t, rfl⟩ : ∃ c t, s = c :: t := by
    cases s with
    | nil => exact absurd rfl hne
    | cons c t => exact ⟨c, t, rfl⟩
  have hprops := mem_hexDigits_props (h c (List.mem_cons_self c t))
  have hlow : (c :: t).map Char.toLower = c :: t := map_toLower_of_hexDigits h
  have hdrop : (c :: t).dropWhile isPyWs = c :: t := by
    rw [List.dropWhile_cons]
    simp [hprops.2.2.2.2.2]
  have hsign : (c = '+' || c = '-') = false := by
    rcases hprops with ⟨-, -, h1, h2, -, -⟩
    simp [h1, h2]
  have htake : ¬((c :: t).take 2 = ['0', 'x']) := by
    intro hcontra
    cases t with
    | nil => simp at hcontra
    | cons c2 t2 =>
      simp only [List.take_succ_cons, List.take_zero, List.cons.injEq, and_true] at hcontra
      obtain ⟨h0, hx2⟩ := hcontra
      have : ('x' : Char) ∈ hexDigits :=
        hx2 ▸ h c2 (List.mem_cons_of_mem c (List.mem_cons_self c2 t2))
      exact absurd this (by decide)
  have hstart : startDigits false (c :: t) = true := by
    rw [startDigits_cons, if_neg hprops.2.2.2.2.1, hprops.1, Bool.true_and]
    exact scanAfterDigit_of_hexDigits (fun c2 hc2 => h c2 (List.mem_cons_of_mem c hc2))
  have hvalid : pyIntValid16 (c :: t) = true := by
    unfold pyIntValid16
    rw [hdrop, afterWs_cons, hsign]
    simp only [Bool.false_eq_true, if_false]
    unfold afterSign
    rw [if_neg htake]
    exact hstart
  simp only [hexMainModel]
  rw [hlow, hvalid]
  simp

/-- C2: the spec requires the hex-mode search to start if and only if every
character of the lowercased prefix is a hexadecimal digit, and the program
prints "Valid characters: 0123456789abcdef" as its contract.  The code
validates with int(prefix, 16), which also accepts the input 0X1: it is
lowercased to 0x1, parsed as a base marker plus one digit, and the search is
spawned even though x is not a hexadecimal digit — and no public key can
ever match a prefix containing x, so that search can never succeed.  The
all-hex-digit inputs are accepted and zzzz is rejected as the spec says. -/
theorem hex_validation_accepts_invalid :
    hexMainModel ("0X1".toList) = Except.ok ("0x1".toList) ∧
    ('x' ∈ "0x1".toList ∧ 'x' ∉ hexDigits) ∧
    (∀ pub : List Nat, hexMatch ("0x1".toList) pub = false) ∧
    hexMainModel ("zzzz".toList) = Except.error () ∧
    (∀ s : List Char, s ≠ [] → (∀ c ∈ s, c ∈ hexDigits) → hexMainModel s = Except.ok s) := by
  refine ⟨by decide, ⟨by decide, by decide⟩, ?_, by decide, ?_⟩
  · intro pub
    by_contra hmatch
    have hm : hexMatch ("0x1".toList) pub = true := by
      cases hmm : hexMatch ("0x1".toList) pub with
      | false => exact absurd hmm hmatch
      | true => rfl
    unfold hexMatch at hm
    have htake := (isPrefixOf_iff_take _ _).mp hm
    have hxmem : 'x' ∈ (hexEncode pub).take ("0x1".toList).length := by
      rw [htake]; decide
    have hxenc : 'x' ∈ hexEncode pub := List.mem_of_mem_take hxmem
    have := hexEncode_mem_hexDigits pub 'x' hxenc
    exact absurd this (by decide)
  · intro s hne h
    exact hexMainModel_of_hexDigits hne h

/-- C3: the hex-mode matcher of _vanity_worker returns true exactly when the
first k characters of the lower-case hexadecimal encoding of the public key
equal the k-character prefix; the encoding uses only lower-case hex digit
characters, and vanity_hex.main hands the matcher the command-line prefix
lowercased once at construction. -/
theorem hexMatch_characterization (pfx : List Char) (pub : List Nat) :
    (hexMatch pfx pub = true ↔ (hexEncode pub).take pfx.length = pfx) ∧
    (∀ c ∈ hexEncode pub, c ∈ hexDigits) ∧
    (∀ arg p : List Char, hexMainModel arg = Except.ok p → p = arg.map Char.toLower) := by
  refine ⟨isPrefixOf_iff_take pfx (hexEncode pub), hexEncode_mem_hexDigits pub, ?_⟩
  intro arg p hok
  simp only [hexMainModel] at hok
  split at hok
  · injection hok with hq; exact hq.symm
  · exact absurd hok (by simp)

/-- The fixed 32-character bech32 alphabet (nostr_keys.py line 10). -/
def BECH32_CHARSET : List Char := "qpzry9x8gf2tvdw0s3jn54khce6mua7l".toList

/-- Modelled from the spec: generator constants of the bech32 checksum of the
external codec (spec section 6 consumes bech32Encode as a black box; the
constants are those of the bech32 reference algorithm used by nostr_tools). -/
def bech32Gen : List Nat := [0x3b6a57b2, 0x26508e6d, 0x1ea119fa, 0x3d4233dd, 0x2a1462b3]

/-- Modelled from the spec: one step of the bech32 checksum polymod. -/
def bech32PolymodStep (chk v : Nat) : Nat :=
  let b := chk >>> 25
  let chk2 := ((chk &&& 0x1ffffff) <<< 5) ^^^ v
  (List.range 5).foldl
    (fun acc i => if (b >>> i) &&& 1 = 1 then acc ^^^ bech32Gen.getD i 0 else acc) chk2

/-- Modelled from the spec: the bech32 checksum polymod. -/
def bech32Polymod (values : List Nat) : Nat := values.foldl bech32PolymodStep 1

/-- Modelled from the spec: bech32 expansion of the human-readable part. -/
def bech32HrpExpand (hrp : List Char) : List Nat :=
  hrp.map (fun c => c.toNat >>> 5) ++ [0] ++ hrp.map (fun c => c.toNat &&& 31)

/-- Modelled from the spec: the six 5-bit checksum values of a bech32 string. -/
def bech32CreateChecksum (hrp : List Char) (data : List Nat) : List Nat :=
  let pm := bech32Polymod (bech32HrpExpand hrp ++ data ++ [0, 0, 0, 0, 0, 0]) ^^^ 1
  (List.range 6).map (fun i => (pm >>> (5 * (5 - i))) &&& 31)

/-- Emit 5-bit groups from an accumulator while at least 5 bits remain, most
significant group first; returns the groups and the leftover bit count.  The
first argument is fuel bounding the while loop; every step removes 5 bits,
so fuel equal to the bit count is always enough. -/
def emitGroupsAux : Nat → Nat → Nat → List Nat × Nat
  | 0, _, bits => ([], bits)
  | fuel + 1, acc, bits =>
    if 5 ≤ bits then
      let p := emitGroupsAux fuel acc (bits - 5)
      (((acc >>> (bits - 5)) &&& 31) :: p.1, p.2)
    else ([], bits)

/-- The while bits >= 5 emission loop of convertbits. -/
def emitGroups (acc bits : Nat) : List Nat × Nat := emitGroupsAux bits acc bits

/-- Modelled from the spec: regrouping of 8-bit bytes into 5-bit values with
final zero padding, as the convertbits(data, 8, 5) helper of the external
bech32 codec does. -/
def convertbits8to5 (bs : List Nat) : List Nat :=
  let st := bs.foldl
    (fun (st : Nat × Nat × List Nat) b =>
      let acc := ((st.1 <<< 8) ||| (b % 256)) &&& 4095
      let p := emitGroups acc (st.2.1 + 8)
      (acc, p.2, st.2.2 ++ p.1))
    (0, 0, [])
  if st.2.1 = 0 then st.2.2 else st.2.2 ++ [(st.1 <<< (5 - st.2.1)) &&& 31]

/-- Modelled from the spec: the external bech32 encoder consumed as
bech32Encode(humanReadablePart, data) in spec section 6 (nostr_tools
to_bech32; in the source it receives the hex string of these bytes and
decodes it back to the same bytes): human-readable part, separator 1, then
the charset-encoded 5-bit data and checksum. -/
def to_bech32 (hrp : List Char) (bs : List Nat) : List Char :=
  let data := convertbits8to5 bs
  hrp ++ ['1'] ++ (data ++ bech32CreateChecksum hrp data).map (fun d => BECH32_CHARSET.getD d 'q')

/-- The npub encoding of a public key: to_bech32("npub", pub_bytes.hex())
of nostr_keys.py line 40. -/
def npubOf (pub : List Nat) : List Char := to_bech32 ("npub".toList) pub

/-- Embedding of the bech32-mode match test of _vanity_worker
(nostr_keys.py line 41): npub[5:].startswith(prefix). -/
def bechMatch (pfx : List Char) (pub : List Nat) : Bool :=
  pfx.isPrefixOf ((npubOf pub).drop 5)

set_option maxRecDepth 10000 in
/-- Sanity check of the modelled codec against a published key pair: the
npub encoding of a known 32-byte public key. -/
theorem npubOf_test_vector : npubOf ([0x3b, 0xf0, 0xc6, 0x3f, 0xcb, 0x93, 0x46, 0x34, 0x07, 0xaf,
    0x97, 0xa5, 0xe5, 0xee, 0x64, 0xfa, 0x88, 0x3d, 0x10, 0x7e, 0xf9, 0xe5,
    0x58, 0x47, 0x2c, 0x4e, 0xb9, 0xaa, 0xae, 0xfa, 0x45, 0x9d]) =
    "npub180cvv07tjdrrgpa0j7j7tmnyl2yr6yr7l8j4s3evf6u64th6gkwsyjh6w6".toList := by decide

/-- C4: the bech32-mode matcher of _vanity_worker drops the first five
characters of the npub encoding and prefix-tests the rest; the encoding is
the human-readable part npub plus the separator 1 (five characters) followed
by the data part, so the matcher returns true exactly when the encoding with
npub1 removed starts with the (already npub1-stripped) prefix. -/
theorem bechMatch_strips_npub1 (pfx : List Char) (pub : List Nat) :
    ∃ rest : List Char, npubOf pub = "npub1".toList ++ rest ∧
      (bechMatch pfx pub = true ↔ pfx.isPrefixOf rest = true) := by
  refine ⟨(convertbits8to5 pub ++
      bech32CreateChecksum ("npub".toList) (convertbits8to5 pub)).map
        (fun d => BECH32_CHARSET.getD d 'q'), ?_, ?_⟩
  · rfl
  · rfl

/-- Embedding of the npub1 stripping of vanity_npub.main (lines 18-19):
one optional leading npub1 is removed, exactly once. -/
def stripNpub1 (p : List Char) : List Char :=
  if ("npub1".toList).isPrefixOf p then p.drop 5 else p

/-- Embedding of vanity_npub.main on a single command-line argument:
lowercase it, strip one optional leading npub1, then accept (start the
search, Except.ok) when every character is in the bech32 charset, else
print a diagnostic and exit with code 1 (Except.error) spawning no worker. -/
def npubMainModel (arg : List Char) : Except Unit (List Char) :=
  let p := stripNpub1 (arg.map Char.toLower)
  if p.all (fun c => BECH32_CHARSET.contains c) then Except.ok p else Except.error ()

/-- C9: a bech32-mode invocation lowercases the prefix, strips one optional
leading npub1, and starts the search exactly when every remaining character
lies in the fixed 32-character bech32 charset; otherwise it exits with an
error before any worker is spawned. -/
theorem npub_validation_characterization (arg q : List Char) :
    (npubMainModel arg = Except.ok q ↔
      (q = stripNpub1 (arg.map Char.toLower) ∧ ∀ c ∈ q, c ∈ BECH32_CHARSET)) ∧
    (npubMainModel arg = Except.error () ↔
      ¬∀ c ∈ stripNpub1 (arg.map Char.toLower), c ∈ BECH32_CHARSET) := by
  have hiff : ∀ l : List Char,
      (l.all (fun c => BECH32_CHARSET.contains c) = true) ↔ ∀ c ∈ l, c ∈ BECH32_CHARSET := by
    intro l
    simp [List.all_eq_true]
  by_cases h :
      (stripNpub1 (arg.map Char.toLower)).all (fun c => BECH32_CHARSET.contains c) = true
  · constructor
    · simp only [npubMainModel, h, if_true]
      constructor
      · intro hok
        injection hok with hq
        exact ⟨hq.symm, hq ▸ (hiff _).mp h⟩
      · rintro ⟨rfl, -⟩
        rfl
    · simp only [npubMainModel, h, if_true]
      constructor
      · intro hbad
        exact absurd hbad (by simp)
      · intro hneg
        exact absurd ((hiff _).mp h) hneg
  · have hf : (stripNpub1 (arg.map Char.toLower)).all
        (fun c => BECH32_CHARSET.contains c) = false := by
      cases hx : (stripNpub1 (arg.map Char.toLower)).all (fun c => BECH32_CHARSET.contains c)
      · rfl
      · exact absurd hx h
    constructor
    · simp only [npubMainModel, hf, Bool.false_eq_true, if_false]
      constructor
      · intro hbad
        exact absurd hbad (by simp)
      · rintro ⟨rfl, hall⟩
        exact absurd ((hiff _).mpr hall) h
    · simp only [npubMainModel, hf, Bool.false_eq_true, if_false]
      constructor
      · intro _ hall
        exact absurd ((hiff _).mpr hall) h
      · intro _
        trivial

/-- Concrete instances of the C9 theorem: npub1qq is normalized to qq and
accepted, and npub1 is stripped only once, so npub1npub1qq normalizes to
npub1qq whose characters b and 1 are outside the charset and it is
rejected. -/
theorem npub_validation_witness :
    npubMainModel ("npub1qq".toList) = Except.ok ("qq".toList) ∧
    npubMainModel ("npub1npub1qq".toList) = Except.error () := by
  constructor
  · exact (npub_validation_characterization ("npub1qq".toList) ("qq".toList)).1.mpr
      ⟨by decide, by decide⟩
  · exact (npub_validation_characterization ("npub1npub1qq".toList) []).2.mpr (by decide)

/-- A keypair as drawn by a worker iteration: the 32 random private bytes
from os.urandom and the 32 public bytes the external secp256k1 module
derives from them (pubkey_from_privbytes). -/
structure KeyPair where
  priv : List Nat
  pub : List Nat
deriving DecidableEq

/-- Program counter of a worker process inside the _vanity_worker loop.
atCheck is the while not found_event.is_set() test; atGen the urandom draw,
key derivation and local_count increment; atFlush the periodic flush test
if local_count % 1000 == 0; atMatch the branch on the match result; then the
winning path atFlushRem (counter += local_count % 1000), atPut
(result_queue.put), atSet (found_event.set) and the worker exits, wonExit.
A worker that observes the event at the loop head exits as lostExit. -/
inductive WPC
  | atCheck
  | atGen
  | atFlush
  | atMatch
  | atFlushRem
  | atPut
  | atSet
  | wonExit
  | lostExit
deriving DecidableEq

/-- State of one worker process: its program counter, the local attempt
counter local_count, the keypair drawn by the current iteration, and the
stream of keypairs its random source will produce (index local_count is
the next draw; a stream that runs out yields the empty keypair, which can
match only the empty hex prefix and no bech32 prefix check ever sees). -/
structure WorkerSt where
  pc : WPC
  localCount : Nat
  drawn : KeyPair
  stream : List KeyPair
deriving DecidableEq

/-- Shared state of one vanity search (run_vanity_search): the search
request, the lock-protected counter.value, the found_event flag, the result
queue in arrival order, and the workers. -/
structure Cfg where
  hexMode : Bool
  pfx : List Char
  counter : Nat
  eventSet : Bool
  queue : List KeyPair
  workers : List WorkerSt
deriving DecidableEq

/-- The per-attempt match test of _vanity_worker (lines 37-41). -/
def matchKey (hexMode : Bool) (pfx : List Char) (kp : KeyPair) : Bool :=
  if hexMode then hexMatch pfx kp.pub else bechMatch pfx kp.pub

/-- A freshly spawned worker with its key stream. -/
def initWorker (stream : List KeyPair) : WorkerSt :=
  ⟨WPC.atCheck, 0, ⟨[], []⟩, stream⟩

/-- The configuration right after run_vanity_search spawned its workers:
counter 0, event clear, queue empty; one worker per stream. -/
def initCfg (hexMode : Bool) (pfx : List Char) (streams : List (List KeyPair)) : Cfg :=
  ⟨hexMode, pfx, 0, false, [], streams.map initWorker⟩

/-- One atomic step of worker i, the small-step semantics of the
_vanity_worker body.  Counter updates are single steps because the code
takes the lock around them; the winning path performs its three shared
effects in the source order: flush the remaining local count, publish the
result, set the event.  A schedule index with no worker, or an exited
worker, leaves the configuration unchanged. -/
def wstep (cfg : Cfg) (i : Nat) : Cfg :=
  match cfg.workers[i]? with
  | none => cfg
  | some w =>
    match w.pc with
    | WPC.atCheck =>
      if cfg.eventSet then
        { cfg with workers := cfg.workers.set i { w with pc := WPC.lostExit } }
      else
        { cfg with workers := cfg.workers.set i { w with pc := WPC.atGen } }
    | WPC.atGen =>
      let kp := w.stream.getD w.localCount ⟨[], []⟩
      let w2 := { w with pc := WPC.atFlush, localCount := w.localCount + 1, drawn := kp }
      { cfg with workers := cfg.workers.set i w2 }
    | WPC.atFlush =>
      if w.localCount % 1000 = 0 then
        { cfg with
            counter := cfg.counter + 1000
            workers := cfg.workers.set i { w with pc := WPC.atMatch } }
      else
        { cfg with workers := cfg.workers.set i { w with pc := WPC.atMatch } }
    | WPC.atMatch =>
      if matchKey cfg.hexMode cfg.pfx w.drawn then
        { cfg with workers := cfg.workers.set i { w with pc := WPC.atFlushRem } }
      else
        { cfg with workers := cfg.workers.set i { w with pc := WPC.atCheck } }
    | WPC.atFlushRem =>
      { cfg with
          counter := cfg.counter + w.localCount % 1000
          workers := cfg.workers.set i { w with pc := WPC.atPut } }
    | WPC.atPut =>
      { cfg with
          queue := cfg.queue ++ [w.drawn]
          workers := cfg.workers.set i { w with pc := WPC.atSet } }
    | WPC.atSet =>
      { cfg with
          eventSet := true
          workers := cfg.workers.set i { w with pc := WPC.wonExit } }
    | WPC.wonExit => cfg
    | WPC.lostExit => cfg

/-- Run a schedule: an arbitrary interleaving of worker steps. -/
def run (cfg : Cfg) : List Nat → Cfg
  | [] => cfg
  | i :: s => run (wstep cfg i) s

/-- The Coordinator's result retrieval, result_queue.get(timeout=2) in
run_vanity_search: the first element ever put on the queue, none when no
result was published. -/
def coordinatorGet (cfg : Cfg) : Option KeyPair := cfg.queue.head?

/-- The true number of key-generation attempts across all workers. -/
def totalAttempts (cfg : Cfg) : Nat := (cfg.workers.map (fun w => w.localCount)).sum

theorem sum_map_set {α : Type} (f : α → Nat) :
    ∀ (l : List α) (i : Nat) (w w' : α), l[i]? = some w →
      ((l.set i w').map f).sum + f w = (l.map f).sum + f w' := by
  intro l
  induction l with
  | nil => intro i w w' h; simp at h
  | cons x t ih =>
    intro i w w' h
    cases i with
    | zero =>
      simp only [List.getElem?_cons_zero, Option.some.injEq] at h
      subst h
      simp only [List.set, List.map_cons, List.sum_cons]
      omega
    | succ n =>
      simp only [List.getElem?_cons_succ] at h
      have ihh := ih n w w' h
      simp only [List.set, List.map_cons, List.sum_cons]
      omega

theorem mem_set_of_ne {α : Type} {a w w' : α} :
    ∀ {l : List α} {i : Nat}, l[i]? = some w → a ∈ l → a ≠ w → a ∈ l.set i w' := by
  intro l
  induction l with
  | nil => intro i h; simp at h
  | cons x t ih =>
    intro i h hmem hne
    cases i with
    | zero =>
      simp only [List.getElem?_cons_zero, Option.some.injEq] at h
      subst h
      simp only [List.set]
      rcases List.mem_cons.mp hmem with rfl | hmem2
      · exact absurd rfl hne
      · exact List.mem_cons_of_mem _ hmem2
    | succ n =>
      simp only [List.getElem?_cons_succ] at h
      simp only [List.set]
      rcases List.mem_cons.mp hmem with rfl | hmem2
      · exact List.mem_cons_self _ _
      · exact List.mem_cons_of_mem _ (ih h hmem2 hne)

theorem set_self_mem {α : Type} {w : α} (w' : α) :
    ∀ {l : List α} {i : Nat}, l[i]? = some w → w' ∈ l.set i w' := by
  intro l
  induction l with
  | nil => intro i h; simp at h
  | cons x t ih =>
    intro i h
    cases i with
    | zero => simp [List.set]
    | succ n =>
      simp only [List.getElem?_cons_succ] at h
      simp only [List.set]
      exact List.mem_cons_of_mem _ (ih h)

theorem run_append (cfg : Cfg) (s1 s2 : List Nat) :
    run cfg (s1 ++ s2) = run (run cfg s1) s2 := by
  induction s1 generalizing cfg with
  | nil => rfl
  | cons i t ih => simp only [List.cons_append, run]; exact ih (wstep cfg i)

theorem wstep_counter_le (cfg : Cfg) (i : Nat) : cfg.counter ≤ (wstep cfg i).counter := by
  rcases hw : cfg.workers[i]? with - | ⟨pc, lc, kp, st⟩
  · simp [wstep, hw]
  · simp only [wstep, hw]
    cases pc <;> (try dsimp only) <;> (try split)
    all_goals try dsimp only
    all_goals omega

theorem run_counter_le (cfg : Cfg) (s : List Nat) : cfg.counter ≤ (run cfg s).counter := by
  induction s generalizing cfg with
  | nil => exact Nat.le_refl _
  | cons i t ih => exact Nat.le_trans (wstep_counter_le cfg i) (ih (wstep cfg i))

/-- C8: the shared counter is monotonically non-decreasing over every
execution: each update (the periodic flush of 1000 and the winning flush of
the remainder) adds a non-negative amount, so along any schedule a later
read of the counter is never smaller than an earlier one. -/
theorem counter_monotone (cfg : Cfg) (s1 s2 : List Nat) :
    (run cfg s1).counter ≤ (run cfg (s1 ++ s2)).counter := by
  rw [run_append]
  exact run_counter_le (run cfg s1) s2

theorem wstep_eventSet_mono (cfg : Cfg) (i : Nat) (h : cfg.eventSet = true) :
    (wstep cfg i).eventSet = true := by
  rcases hw : cfg.workers[i]? with - | ⟨pc, lc, kp, st⟩
  · simpa [wstep, hw] using h
  · simp only [wstep, hw]
    cases pc <;> (try dsimp only) <;> (try split)
    all_goals try dsimp only
    all_goals first | rfl | exact h

theorem run_eventSet_mono (cfg : Cfg) (s : List Nat) (h : cfg.eventSet = true) :
    (run cfg s).eventSet = true := by
  induction s generalizing cfg with
  | nil => exact h
  | cons i t ih => exact ih (wstep cfg i) (wstep_eventSet_mono cfg i h)

theorem wstep_queue_mono (cfg : Cfg) (i : Nat) :
    ∃ t : List KeyPair, (wstep cfg i).queue = cfg.queue ++ t := by
  rcases hw : cfg.workers[i]? with - | ⟨pc, lc, kp, st⟩
  · exact ⟨[], by simp [wstep, hw]⟩
  · simp only [wstep, hw]
    cases pc <;> (try dsimp only) <;> (try split)
    all_goals try dsimp only
    all_goals first
      | (refine ⟨[], ?_⟩; simp; done)
      | (refine ⟨[kp], ?_⟩; simp)

theorem run_queue_mono (cfg : Cfg) (s : List Nat) :
    ∃ t : List KeyPair, (run cfg s).queue = cfg.queue ++ t := by
  induction s generalizing cfg with
  | nil => exact ⟨[], by simp [run]⟩
  | cons i t ih =>
    obtain ⟨t1, h1⟩ := wstep_queue_mono cfg i
    obtain ⟨t2, h2⟩ := ih (wstep cfg i)
    exact ⟨t1 ++ t2, by rw [run, h2, h1, List.append_assoc]⟩

/-- C6: the Coordinator consumes exactly one result, the first one ever
published: workers only append to the result queue, the Coordinator takes
the queue head once with result_queue.get, and a second result published by
a concurrent winner stays behind the first, ignored without error. -/
theorem first_result_wins (cfg : Cfg) (s : List Nat) (r : KeyPair)
    (rest : List KeyPair) (h : cfg.queue = r :: rest) :
    coordinatorGet (run cfg s) = some r ∧
    ∃ t : List KeyPair, (run cfg s).queue = cfg.queue ++ t := by
  obtain ⟨t, ht⟩ := run_queue_mono cfg s
  refine ⟨?_, ⟨t, ht⟩⟩
  rw [coordinatorGet, ht, h]
  simp

/-- The attempt count of worker j (0 when j names no worker). -/
def lcOf (cfg : Cfg) (j : Nat) : Nat :=
  match cfg.workers[j]? with
  | some w => w.localCount
  | none => 0

/-- How many further key generations worker j can still perform once the
event is set: one when it already passed the loop-head check and sits right
before the draw, none otherwise. -/
def genPotential (cfg : Cfg) (j : Nat) : Nat :=
  match cfg.workers[j]? with
  | some w => if w.pc = WPC.atGen then 1 else 0
  | none => 0

theorem wstep_lc_pot (cfg : Cfg) (i j : Nat) (h : cfg.eventSet = true) :
    lcOf (wstep cfg i) j + genPotential (wstep cfg i) j ≤ lcOf cfg j + genPotential cfg j := by
  rcases hw : cfg.workers[i]? with - | ⟨pc, lc, kp, st⟩
  · simp [wstep, hw]
  · by_cases hij : i = j
    · subst hij
      have hlt : i < cfg.workers.length := by
        rcases List.getElem?_eq_some_iff.mp hw with ⟨hl, -⟩
        exact hl
      simp only [wstep, hw]
      cases pc <;> (try dsimp only) <;> (try split)
      all_goals simp_all [lcOf, genPotential, hw, List.getElem?_set_self hlt]
    · have hset : ∀ (w2 : WorkerSt),
          (cfg.workers.set i w2)[j]? = cfg.workers[j]? :=
        fun w2 => List.getElem?_set_ne hij
      simp only [wstep, hw]
      cases pc <;> (try dsimp only) <;> (try split)
      all_goals simp_all [lcOf, genPotential, hset]

theorem run_lc_pot (cfg : Cfg) (s : List Nat) (j : Nat) (h : cfg.eventSet = true) :
    lcOf (run cfg s) j + genPotential (run cfg s) j ≤ lcOf cfg j + genPotential cfg j := by
  induction s generalizing cfg with
  | nil => exact Nat.le_refl _
  | cons i t ih =>
    exact Nat.le_trans (ih (wstep cfg i) (wstep_eventSet_mono cfg i h))
      (wstep_lc_pot cfg i j h)

theorem genPotential_le_one (cfg : Cfg) (j : Nat) : genPotential cfg j ≤ 1 := by
  rcases hw : cfg.workers[j]? with - | w
  · simp [genPotential, hw]
  · simp only [genPotential, hw]
    split <;> omega

/-- C7: once the cancellation event is set, a worker checks the flag once
per loop iteration, so every still-running worker performs at most one
further key-generation attempt under any continuation schedule: its attempt
counter can grow by at most 1 after cancellation. -/
theorem bounded_overrun_after_cancel (cfg : Cfg) (s : List Nat) (j : Nat)
    (h : cfg.eventSet = true) : lcOf (run cfg s) j ≤ lcOf cfg j + 1 := by
  have h1 := run_lc_pot cfg s j h
  have h2 := genPotential_le_one cfg j
  omega

/-- How much worker w has already added to the shared counter, read off its
program counter: complete batches of 1000 only, except that the winning path
after its remainder flush has published everything.  At atFlush the draw of
the current iteration has already been counted in localCount but the flush
decision is still pending, hence the shift by one. -/
def flushedOf (w : WorkerSt) : Nat :=
  match w.pc with
  | WPC.atCheck | WPC.atGen | WPC.atMatch | WPC.atFlushRem | WPC.lostExit =>
      w.localCount - w.localCount % 1000
  | WPC.atFlush => (w.localCount - 1) - (w.localCount - 1) % 1000
  | WPC.atPut | WPC.atSet | WPC.wonExit => w.localCount

/-- The total of all workers' published contributions. -/
def flushedSum (cfg : Cfg) : Nat := (cfg.workers.map flushedOf).sum

/-- The accounting invariant of the search: the shared counter is exactly
the sum of the per-worker published contributions; a worker at the periodic
flush point has drawn at least once; a worker about to set the event has
already published its result; and once the event is set some worker has
completed the whole winning path and a result is on the queue. -/
def GlobalInv (cfg : Cfg) : Prop :=
  cfg.counter = flushedSum cfg ∧
  (∀ w ∈ cfg.workers, w.pc = WPC.atFlush → 1 ≤ w.localCount) ∧
  (∀ w ∈ cfg.workers, w.pc = WPC.atSet → cfg.queue ≠ []) ∧
  (cfg.eventSet = true → (∃ w ∈ cfg.workers, w.pc = WPC.wonExit) ∧ cfg.queue ≠ [])

theorem inv_set_worker_counter (cfg : Cfg) (i : Nat) (w w2 : WorkerSt) (d : Nat)
    (hw : cfg.workers[i]? = some w) (hinv : GlobalInv cfg)
    (hfl : flushedOf w2 = flushedOf w + d)
    (hlc2 : w2.pc = WPC.atFlush → 1 ≤ w2.localCount)
    (hset2 : w2.pc ≠ WPC.atSet)
    (hw2won : w2.pc ≠ WPC.wonExit)
    (hwold : w.pc ≠ WPC.wonExit) :
    GlobalInv { cfg with counter := cfg.counter + d, workers := cfg.workers.set i w2 } := by
  obtain ⟨hctr, hflush, hqueue, hev⟩ := hinv
  have hsum := sum_map_set flushedOf cfg.workers i w w2 hw
  simp only [flushedSum] at hctr
  refine ⟨?_, ?_, ?_, ?_⟩
  · show cfg.counter + d = flushedSum _
    simp only [flushedSum]
    omega
  · intro w3 hmem hpc
    rcases List.mem_or_eq_of_mem_set hmem with hin | rfl
    · exact hflush _ hin hpc
    · exact hlc2 hpc
  · intro w3 hmem hpc
    rcases List.mem_or_eq_of_mem_set hmem with hin | rfl
    · exact hqueue _ hin hpc
    · exact absurd hpc hset2
  · intro hevt
    obtain ⟨⟨w0, hw0mem, hw0pc⟩, hq⟩ := hev hevt
    have hne : w0 ≠ w := fun heq => hwold (heq ▸ hw0pc)
    exact ⟨⟨w0, mem_set_of_ne hw hw0mem hne, hw0pc⟩, hq⟩

theorem inv_set_worker_put (cfg : Cfg) (i : Nat) (w w2 : WorkerSt) (kp : KeyPair)
    (hw : cfg.workers[i]? = some w) (hinv : GlobalInv cfg)
    (hfl : flushedOf w2 = flushedOf w)
    (hlc2 : w2.pc = WPC.atFlush → 1 ≤ w2.localCount)
    (hw2won : w2.pc ≠ WPC.wonExit)
    (hwold : w.pc ≠ WPC.wonExit) :
    GlobalInv { cfg with queue := cfg.queue ++ [kp], workers := cfg.workers.set i w2 } := by
  obtain ⟨hctr, hflush, hqueue, hev⟩ := hinv
  have hsum := sum_map_set flushedOf cfg.workers i w w2 hw
  simp only [flushedSum] at hctr
  refine ⟨?_, ?_, ?_, ?_⟩
  · show cfg.counter = flushedSum _
    simp only [flushedSum]
    omega
  · intro w3 hmem hpc
    rcases List.mem_or_eq_of_mem_set hmem with hin | rfl
    · exact hflush _ hin hpc
    · exact hlc2 hpc
  · intro w3 hmem hpc
    simp
  · intro hevt
    obtain ⟨⟨w0, hw0mem, hw0pc⟩, hq⟩ := hev hevt
    have hne : w0 ≠ w := fun heq => hwold (heq ▸ hw0pc)
    refine ⟨⟨w0, mem_set_of_ne hw hw0mem hne, hw0pc⟩, by simp⟩

theorem inv_set_worker_event (cfg : Cfg) (i : Nat) (w w2 : WorkerSt)
    (hw : cfg.workers[i]? = some w) (hinv : GlobalInv cfg)
    (hfl : flushedOf w2 = flushedOf w)
    (hw2 : w2.pc = WPC.wonExit)
    (hwold : w.pc = WPC.atSet) :
    GlobalInv { cfg with eventSet := true, workers := cfg.workers.set i w2 } := by
  obtain ⟨hctr, hflush, hqueue, hev⟩ := hinv
  have hsum := sum_map_set flushedOf cfg.workers i w w2 hw
  have hmemw : w ∈ cfg.workers := List.getElem?_mem hw
  have hq : cfg.queue ≠ [] := hqueue w hmemw hwold
  simp only [flushedSum] at hctr
  refine ⟨?_, ?_, ?_, ?_⟩
  · show cfg.counter = flushedSum _
    simp only [flushedSum]
    omega
  · intro w3 hmem hpc
    rcases List.mem_or_eq_of_mem_set hmem with hin | rfl
    · exact hflush _ hin hpc
    · rw [hw2] at hpc
      exact absurd hpc (by decide)
  · intro w3 hmem hpc
    rcases List.mem_or_eq_of_mem_set hmem with hin | rfl
    · exact hqueue _ hin hpc
    · exact hq
  · intro _
    exact ⟨⟨w2, set_self_mem w2 hw, hw2⟩, hq⟩

theorem wstep_inv (cfg : Cfg) (i : Nat) (hinv : GlobalInv cfg) : GlobalInv (wstep cfg i) := by
  rcases hw : cfg.workers[i]? with - | ⟨pc, lc, kp, st⟩
  · simpa [wstep, hw] using hinv
  · have hmemw : (⟨pc, lc, kp, st⟩ : WorkerSt) ∈ cfg.workers := List.getElem?_mem hw
    cases pc
    case atCheck =>
      simp only [wstep, hw]
      by_cases hev : cfg.eventSet = true
      · rw [if_pos hev]
        exact inv_set_worker_counter cfg i _ _ 0 hw hinv (by simp [flushedOf])
          (by intro hx; exact absurd hx (by simp)) (by simp) (by simp) (by simp)
      · rw [if_neg hev]
        exact inv_set_worker_counter cfg i _ _ 0 hw hinv (by simp [flushedOf])
          (by intro hx; exact absurd hx (by simp)) (by simp) (by simp) (by simp)
    case atGen =>
      simp only [wstep, hw]
      exact inv_set_worker_counter cfg i _ _ 0 hw hinv (by simp [flushedOf])
        (by intro _; simp; try omega) (by simp) (by simp) (by simp)
    case atFlush =>
      have hlc : 1 ≤ lc := hinv.2.1 _ hmemw rfl
      simp only [wstep, hw]
      by_cases hmod : lc % 1000 = 0
      · rw [if_pos hmod]
        refine inv_set_worker_counter cfg i _ _ 1000 hw hinv ?_
          (by intro hx; exact absurd hx (by simp)) (by simp) (by simp) (by simp)
        simp only [flushedOf]
        omega
      · rw [if_neg hmod]
        refine inv_set_worker_counter cfg i _ _ 0 hw hinv ?_
          (by intro hx; exact absurd hx (by simp)) (by simp) (by simp) (by simp)
        simp only [flushedOf]
        omega
    case atMatch =>
      simp only [wstep, hw]
      by_cases hm : matchKey cfg.hexMode cfg.pfx kp = true
      · rw [if_pos hm]
        exact inv_set_worker_counter cfg i _ _ 0 hw hinv (by simp [flushedOf])
          (by intro hx; exact absurd hx (by simp)) (by simp) (by simp) (by simp)
      · rw [if_neg hm]
        exact inv_set_worker_counter cfg i _ _ 0 hw hinv (by simp [flushedOf])
          (by intro hx; exact absurd hx (by simp)) (by simp) (by simp) (by simp)
    case atFlushRem =>
      simp only [wstep, hw]
      refine inv_set_worker_counter cfg i _ _ (lc % 1000) hw hinv ?_
        (by intro hx; exact absurd hx (by simp)) (by simp) (by simp) (by simp)
      simp only [flushedOf]
      omega
    case atPut =>
      simp only [wstep, hw]
      exact inv_set_worker_put cfg i _ _ kp hw hinv (by simp [flushedOf])
        (by intro hx; exact absurd hx (by simp)) (by simp) (by simp)
    case atSet =>
      simp only [wstep, hw]
      exact inv_set_worker_event cfg i _ _ hw hinv (by simp [flushedOf]) rfl rfl
    case wonExit =>
      simpa [wstep, hw] using hinv
    case lostExit =>
      simpa [wstep, hw] using hinv

theorem run_inv (cfg : Cfg) (s : List Nat) (hinv : GlobalInv cfg) : GlobalInv (run cfg s) := by
  induction s generalizing cfg with
  | nil => exact hinv
  | cons i t ih => exact ih (wstep cfg i) (wstep_inv cfg i hinv)

theorem initCfg_inv (hm : Bool) (pfx : List Char) (streams : List (List KeyPair)) :
    GlobalInv (initCfg hm pfx streams) := by
  refine ⟨?_, ?_, ?_, ?_⟩
  · show (0 : Nat) = flushedSum _
    simp only [flushedSum, initCfg]
    induction streams with
    | nil => rfl
    | cons s t ih => simpa [initWorker, flushedOf] using ih
  · intro w hmem hpc
    simp only [initCfg, List.mem_map] at hmem
    obtain ⟨st, -, rfl⟩ := hmem
    exact absurd hpc (by simp [initWorker])
  · intro w hmem hpc
    simp only [initCfg, List.mem_map] at hmem
    obtain ⟨st, -, rfl⟩ := hmem
    exact absurd hpc (by simp [initWorker])
  · intro hevt
    exact absurd hevt (by simp [initCfg])

/-- C5: in any reachable configuration in which the event is set, some
worker has completed the whole winning path in the source order — flush of
the remaining local count, publication of the result, event set — so it has
exited as the winner with its full attempt count (the winning attempt
included) flushed, the counter accounts exactly the flushed contributions,
and the published result is already on the queue. -/
theorem winner_flush_before_cancel (hm : Bool) (pfx : List Char)
    (streams : List (List KeyPair)) (s : List Nat)
    (h : (run (initCfg hm pfx streams) s).eventSet = true) :
    ∃ w ∈ (run (initCfg hm pfx streams) s).workers,
      w.pc = WPC.wonExit ∧ flushedOf w = w.localCount ∧
      (run (initCfg hm pfx streams) s).counter = flushedSum (run (initCfg hm pfx streams) s) ∧
      (run (initCfg hm pfx streams) s).queue ≠ [] := by
  obtain ⟨hctr, -, -, hev⟩ := run_inv _ s (initCfg_inv hm pfx streams)
  obtain ⟨⟨w, hmem, hpc⟩, hq⟩ := hev h
  refine ⟨w, hmem, hpc, ?_, hctr, hq⟩
  simp [flushedOf, hpc]

/-- A keypair whose public key hex encoding starts with ab. -/
def kpMatch : KeyPair := ⟨[1], 171 :: List.replicate 31 0⟩

/-- A keypair whose public key hex encoding starts with 00. -/
def kpMiss : KeyPair := ⟨[2], List.replicate 32 0⟩

/-- A two-worker hex search for the prefix ab in which worker 0 finds a
match on its first draw and worker 1 draws once without matching. -/
def cexCfg : Cfg := initCfg true ("ab".toList) [[kpMatch], [kpMiss]]

/-- Schedule: worker 1 runs one full unsuccessful iteration, worker 0 runs
one full iteration, matches, flushes its remainder, publishes and sets the
event, then worker 1 observes the event at its loop head and exits. -/
def cexSched : List Nat := [1, 1, 1, 1, 0, 0, 0, 0, 0, 0, 0, 1]

/-- Concrete instance of the C5 theorem on a finished two-worker search. -/
theorem winner_flush_witness :
    ∃ w ∈ (run (initCfg true ("ab".toList) [[kpMatch], [kpMiss]]) cexSched).workers,
      w.pc = WPC.wonExit ∧ flushedOf w = w.localCount ∧
      (run (initCfg true ("ab".toList) [[kpMatch], [kpMiss]]) cexSched).counter =
        flushedSum (run (initCfg true ("ab".toList) [[kpMatch], [kpMiss]]) cexSched) ∧
      (run (initCfg true ("ab".toList) [[kpMatch], [kpMiss]]) cexSched).queue ≠ [] :=
  winner_flush_before_cancel true ("ab".toList) [[kpMatch], [kpMiss]] cexSched (by decide)

/-- C1 counterexample: a finished two-worker search (event set, both
workers exited) in which two key-generation attempts were made but the
final shared counter is 1: the winner flushed its remainder, while the
non-winning worker exited at the loop head without flushing its remaining
local count, so one attempt is lost. -/
theorem counter_missing_attempts_cex :
    (∀ w ∈ (run cexCfg cexSched).workers, w.pc = WPC.wonExit ∨ w.pc = WPC.lostExit) ∧
    (run cexCfg cexSched).eventSet = true ∧
    (run cexCfg cexSched).counter = 1 ∧
    totalAttempts (run cexCfg cexSched) = 2 := by decide

theorem sum_lc_le_flushed_add (l : List WorkerSt)
    (h : ∀ w ∈ l, w.localCount ≤ flushedOf w + 1000) :
    (l.map (fun w => w.localCount)).sum ≤ (l.map flushedOf).sum + 1000 * l.length := by
  induction l with
  | nil => simp
  | cons x t ih =>
    simp only [List.map_cons, List.sum_cons, List.length_cons]
    have hx := h x (List.mem_cons_self x t)
    have ht := ih (fun w hw => h w (List.mem_cons_of_mem x hw))
    omega

theorem sum_lc_bound_with_winner (l : List WorkerSt) (w0 : WorkerSt)
    (hmem : w0 ∈ l) (hw0 : flushedOf w0 = w0.localCount)
    (h : ∀ w ∈ l, w.localCount ≤ flushedOf w + 1000) :
    (l.map (fun w => w.localCount)).sum ≤ (l.map flushedOf).sum + 1000 * (l.length - 1) := by
  obtain ⟨l1, l2, rfl⟩ := List.append_of_mem hmem
  simp only [List.map_append, List.sum_append, List.map_cons, List.sum_cons,
    List.length_append, List.length_cons]
  have h1 := sum_lc_le_flushed_add l1
    (fun w hw => h w (List.mem_append_left _ hw))
  have h2 := sum_lc_le_flushed_add l2
    (fun w hw => h w (List.mem_append_right _ (List.mem_cons_of_mem _ hw)))
  omega

theorem sum_flushed_le_lc (l : List WorkerSt)
    (h : ∀ w ∈ l, flushedOf w ≤ w.localCount) :
    (l.map flushedOf).sum ≤ (l.map (fun w => w.localCount)).sum := by
  induction l with
  | nil => simp
  | cons x t ih =>
    simp only [List.map_cons, List.sum_cons]
    have hx := h x (List.mem_cons_self x t)
    have ht := ih (fun w hw => h w (List.mem_cons_of_mem x hw))
    omega

/-- C1 amended: whenever the search is observed finished (the cancellation
event is set, in particular when the Coordinator reads the final counter,
however the schedule ends afterwards, including terminate() killing workers
at an arbitrary point of their iteration), the shared counter equals
exactly the sum of the per-worker flushed contributions; the winning worker
has flushed its exact attempt count, the winning attempt included; every
worker contributes at most its true attempt count and undershoots it by at
most one batch of 1000 (its remainder below 1000 when it exits at the loop
head, up to a full pending batch when it is killed mid-iteration).  Hence
the final counter never exceeds the true total number of attempts and
undershoots it by at most 1000 per non-winning worker; the exact equality
the claim states does not hold. -/
theorem final_counter_accounting (hm : Bool) (pfx : List Char)
    (streams : List (List KeyPair)) (s : List Nat)
    (hev : (run (initCfg hm pfx streams) s).eventSet = true) :
    (run (initCfg hm pfx streams) s).counter = flushedSum (run (initCfg hm pfx streams) s) ∧
    (∃ w ∈ (run (initCfg hm pfx streams) s).workers,
      w.pc = WPC.wonExit ∧ flushedOf w = w.localCount) ∧
    (∀ w ∈ (run (initCfg hm pfx streams) s).workers,
      flushedOf w ≤ w.localCount ∧ w.localCount ≤ flushedOf w + 1000) ∧
    (run (initCfg hm pfx streams) s).counter ≤ totalAttempts (run (initCfg hm pfx streams) s) ∧
    totalAttempts (run (initCfg hm pfx streams) s) ≤
      (run (initCfg hm pfx streams) s).counter +
        1000 * ((run (initCfg hm pfx streams) s).workers.length - 1) := by
  obtain ⟨hctr, -, -, hev4⟩ := run_inv _ s (initCfg_inv hm pfx streams)
  obtain ⟨⟨w0, hw0mem, hw0pc⟩, -⟩ := hev4 hev
  have hw0fl : flushedOf w0 = w0.localCount := by simp [flushedOf, hw0pc]
  have hbounds : ∀ w ∈ (run (initCfg hm pfx streams) s).workers,
      flushedOf w ≤ w.localCount ∧ w.localCount ≤ flushedOf w + 1000 := by
    intro w hw
    cases hpcase : w.pc <;> simp only [flushedOf, hpcase] <;> omega
  refine ⟨hctr, ⟨w0, hw0mem, hw0pc, hw0fl⟩, hbounds, ?_, ?_⟩
  · rw [hctr]
    simp only [totalAttempts, flushedSum]
    exact sum_flushed_le_lc _ (fun w hw => (hbounds w hw).1)
  · rw [hctr]
    simp only [totalAttempts, flushedSum]
    exact sum_lc_bound_with_winner _ w0 hw0mem hw0fl (fun w hw => (hbounds w hw).2)

/-- Concrete instance of the amended C1 on the finished two-worker search:
the counter (1) accounts the winner exactly, is at most the true total of
2 attempts, and undershoots it within one batch per non-winning worker. -/
theorem final_counter_accounting_witness :
    (run cexCfg cexSched).counter = flushedSum (run cexCfg cexSched) ∧
    (∃ w ∈ (run cexCfg cexSched).workers,
      w.pc = WPC.wonExit ∧ flushedOf w = w.localCount) ∧
    (∀ w ∈ (run cexCfg cexSched).workers,
      flushedOf w ≤ w.localCount ∧ w.localCount ≤ flushedOf w + 1000) ∧
    (run cexCfg cexSched).counter ≤ totalAttempts (run cexCfg cexSched) ∧
    totalAttempts (run cexCfg cexSched) ≤
      (run cexCfg cexSched).counter + 1000 * ((run cexCfg cexSched).workers.length - 1) :=
  final_counter_accounting true ("ab".toList) [[kpMatch], [kpMiss]] cexSched (by decide)

theorem hexMatch_false_of_long {pfx : List Char} (hp : 64 < pfx.length)
    {pub : List Nat} (hl : pub.length ≤ 32) : hexMatch pfx pub = false := by
  cases hm : hexMatch pfx pub with
  | false => rfl
  | true =>
    exfalso
    have hle := isPrefixOf_length_le hm
    rw [hexEncode_length] at hle
    omega

/-- Invariant of a hex search whose prefix is longer than any encoding: the
queue stays empty, the event stays clear, no worker ever leaves the plain
loop, and every key a worker can draw has a public part of at most 32
bytes. -/
def NoMatchInv (pfx : List Char) (cfg : Cfg) : Prop :=
  cfg.hexMode = true ∧ cfg.pfx = pfx ∧ cfg.queue = [] ∧ cfg.eventSet = false ∧
  ∀ w ∈ cfg.workers,
    (w.pc = WPC.atCheck ∨ w.pc = WPC.atGen ∨ w.pc = WPC.atFlush ∨
      w.pc = WPC.atMatch ∨ w.pc = WPC.lostExit) ∧
    w.drawn.pub.length ≤ 32 ∧ ∀ kp2 ∈ w.stream, kp2.pub.length ≤ 32

theorem getD_pub_le (st : List KeyPair) (hst : ∀ kp2 ∈ st, kp2.pub.length ≤ 32)
    (n : Nat) : (st.getD n ⟨[], []⟩).pub.length ≤ 32 := by
  rcases hg : st[n]? with - | kp2
  · simp [List.getD_eq_getElem?_getD, hg]
  · rw [List.getD_eq_getElem?_getD, hg]
    exact hst _ (List.getElem?_mem hg)

theorem wstep_nomatch (pfx : List Char) (hp : 64 < pfx.length) (cfg : Cfg) (i : Nat)
    (h : NoMatchInv pfx cfg) : NoMatchInv pfx (wstep cfg i) := by
  obtain ⟨hhm, hpfx, hq, hev, hws⟩ := h
  rcases hw : cfg.workers[i]? with - | ⟨pc, lc, kp, st⟩
  · simp only [wstep, hw]
    exact ⟨hhm, hpfx, hq, hev, hws⟩
  · have hwmem := List.getElem?_mem hw
    have hwprops := hws _ hwmem
    cases pc
    case atCheck =>
      simp only [wstep, hw]
      rw [if_neg (by rw [hev]; simp)]
      refine ⟨hhm, hpfx, hq, hev, ?_⟩
      intro w3 hmem
      rcases List.mem_or_eq_of_mem_set hmem with hin | rfl
      · exact hws _ hin
      · exact ⟨by simp, hwprops.2.1, hwprops.2.2⟩
    case atGen =>
      simp only [wstep, hw]
      refine ⟨hhm, hpfx, hq, hev, ?_⟩
      intro w3 hmem
      rcases List.mem_or_eq_of_mem_set hmem with hin | rfl
      · exact hws _ hin
      · exact ⟨by simp, getD_pub_le st hwprops.2.2 lc, hwprops.2.2⟩
    case atFlush =>
      simp only [wstep, hw]
      split
      all_goals refine ⟨hhm, hpfx, hq, hev, ?_⟩
      all_goals intro w3 hmem
      all_goals rcases List.mem_or_eq_of_mem_set hmem with hin | rfl
      · exact hws _ hin
      · exact ⟨by simp, hwprops.2.1, hwprops.2.2⟩
      · exact hws _ hin
      · exact ⟨by simp, hwprops.2.1, hwprops.2.2⟩
    case atMatch =>
      simp only [wstep, hw]
      have hnm : matchKey cfg.hexMode cfg.pfx kp = false := by
        rw [hhm, hpfx]
        simp only [matchKey, if_true]
        exact hexMatch_false_of_long hp hwprops.2.1
      rw [if_neg (by rw [hnm]; simp)]
      refine ⟨hhm, hpfx, hq, hev, ?_⟩
      intro w3 hmem
      rcases List.mem_or_eq_of_mem_set hmem with hin | rfl
      · exact hws _ hin
      · exact ⟨by simp, hwprops.2.1, hwprops.2.2⟩
    case atFlushRem => rcases hwprops.1 with h | h | h | h | h <;> simp at h
    case atPut => rcases hwprops.1 with h | h | h | h | h <;> simp at h
    case atSet => rcases hwprops.1 with h | h | h | h | h <;> simp at h
    case wonExit => rcases hwprops.1 with h | h | h | h | h <;> simp at h
    case lostExit =>
      simp only [wstep, hw]
      exact ⟨hhm, hpfx, hq, hev, hws⟩

theorem run_nomatch (pfx : List Char) (hp : 64 < pfx.length) (cfg : Cfg) (s : List Nat)
    (h : NoMatchInv pfx cfg) : NoMatchInv pfx (run cfg s) := by
  induction s generalizing cfg with
  | nil => exact h
  | cons i t ih => exact ih (wstep cfg i) (wstep_nomatch pfx hp cfg i h)

theorem initCfg_nomatch (pfx : List Char) (streams : List (List KeyPair))
    (hst : ∀ st ∈ streams, ∀ kp2 ∈ st, kp2.pub.length ≤ 32) :
    NoMatchInv pfx (initCfg true pfx streams) := by
  refine ⟨rfl, rfl, rfl, rfl, ?_⟩
  intro w hmem
  simp only [initCfg, List.mem_map] at hmem
  obtain ⟨st, hstmem, rfl⟩ := hmem
  exact ⟨by simp [initWorker], by simp [initWorker], by simpa [initWorker] using hst st hstmem⟩

/-- C10: with a hex prefix longer than the 64 characters of the encoding of
a 32-byte public key, the match test is false for every public key, and a
search with such a prefix never publishes a result and never sets the
cancellation event under any interleaving: it can only terminate from the
outside, never by success. -/
theorem long_prefix_never_matches (pfx : List Char) (hp : 64 < pfx.length) :
    (∀ pub : List Nat, pub.length ≤ 32 → hexMatch pfx pub = false) ∧
    (∀ (streams : List (List KeyPair)) (s : List Nat),
      (∀ st ∈ streams, ∀ kp2 ∈ st, kp2.pub.length ≤ 32) →
      (run (initCfg true pfx streams) s).queue = [] ∧
      (run (initCfg true pfx streams) s).eventSet = false) := by
  refine ⟨fun pub hl => hexMatch_false_of_long hp hl, ?_⟩
  intro streams s hst
  obtain ⟨-, -, hq, hev, -⟩ := run_nomatch pfx hp _ s (initCfg_nomatch pfx streams hst)
  exact ⟨hq, hev⟩

/-- Concrete instance of the C10 theorem: a 65-character prefix never
matches a 32-byte key, and a one-worker search for it publishes nothing in
four steps of a full loop iteration. -/
theorem long_prefix_never_matches_witness :
    hexMatch (List.replicate 65 'a') (List.replicate 32 0) = false ∧
    (run (initCfg true (List.replicate 65 'a') [[kpMatch]]) [0, 0, 0, 0]).queue = [] ∧
    (run (initCfg true (List.replicate 65 'a') [[kpMatch]]) [0, 0, 0, 0]).eventSet = false := by
  obtain ⟨h1, h2⟩ := long_prefix_never_matches (List.replicate 65 'a') (by decide)
  obtain ⟨hq, hev⟩ := h2 [[kpMatch]] [0, 0, 0, 0] (by decide)
  exact ⟨h1 (List.replicate 32 0) (by decide), hq, hev⟩

/-- A duplicate-match state: worker 0 already won and published its result,
worker 1 matched in the same window before observing the event and is about
to publish a second result. -/
def dupCfg : Cfg :=
  ⟨true, "ab".toList, 2, true, [kpMiss],
    [⟨WPC.wonExit, 1, kpMiss, []⟩, ⟨WPC.atPut, 1, kpMatch, []⟩]⟩

/-- Concrete instance of the C6 theorem: after the late worker publishes its
duplicate result and sets the event again, the Coordinator still retrieves
the first published result; the duplicate sits behind it, ignored. -/
theorem first_result_wins_witness :
    coordinatorGet (run dupCfg [1, 1]) = some kpMiss ∧
    ∃ t : List KeyPair, (run dupCfg [1, 1]).queue = dupCfg.queue ++ t :=
  first_result_wins dupCfg [1, 1] kpMiss [] rfl

/-- A state right after cancellation was set while one worker had already
passed its loop-head check and sits just before the key draw. -/
def overrunCfg : Cfg :=
  ⟨true, "ab".toList, 0, true, [kpMiss],
    [⟨WPC.atGen, 0, kpMiss, [kpMiss, kpMiss, kpMiss]⟩]⟩

/-- Concrete instance of the C7 theorem: the mid-iteration worker finishes
its current iteration with exactly one more draw and then exits at the loop
head; its attempt count grows by at most one after cancellation. -/
theorem bounded_overrun_witness :
    lcOf (run overrunCfg [0, 0, 0, 0, 0, 0, 0, 0]) 0 ≤ lcOf overrunCfg 0 + 1 :=
  bounded_overrun_after_cancel overrunCfg [0, 0, 0, 0, 0, 0, 0, 0] 0 rfl
